import Mathlib

/-!
Shallow embedding of `src/merge_docs.py`.

The script scans an input directory of `.docx` files, classifies them by the
regular expression `(?P<id>\d{3})-(?P<category>skills|courses|mission).docx`
applied with `re.search` and `re.IGNORECASE`, buckets the matched files by
degree id and category, merges mission+skills text pairs into description
documents, moves courses/incomplete/empty-text files into labelled output
directories, and finally moves every file of the input directory that is not
a bucket value into the unknown directory.

The filesystem is modelled by `FS`: lists of file names per directory (the
descriptions directory also stores the paragraphs of each synthesized file).
Reading a document is modelled by an association list from file name to the
list of paragraph texts; a file name absent from the list stands for a file
that `docx.Document` fails to open, which in the script raises an uncaught
exception.  The whole run is therefore `Except`-valued.
-/

namespace MergeDocs

/-- Case-insensitive literal matcher: `stripCI w cs` consumes the word `w`
(given in lowercase) from the front of `cs`, comparing each char of `cs`
lowercased, and returns the remaining suffix.  This models matching the
literal alternatives of the regex under `re.IGNORECASE`. -/
def stripCI : List Char → List Char → Option (List Char)
  | [], cs => some cs
  | _ :: _, [] => none
  | a :: w, c :: cs => if c.toLower = a then stripCI w cs else none

/-- Match the category alternation `skills|courses|mission` (in the order the
regex lists it) case-insensitively at the front of `rest`; returns the
lowercased category together with the unconsumed suffix. -/
def matchCat (rest : List Char) : Option (String × List Char) :=
  match stripCI "skills".toList rest with
  | some r => some ("skills", r)
  | none =>
    match stripCI "courses".toList rest with
    | some r => some ("courses", r)
    | none =>
      match stripCI "mission".toList rest with
      | some r => some ("mission", r)
      | none => none

/-- Match the regex tail `.docx`: the unescaped `.` matches any single
character, then the literal `docx` (case-insensitive); trailing characters
are allowed because `re.search` does not anchor the end. -/
def matchTail : List Char → Bool
  | [] => false
  | _ :: rest => (stripCI "docx".toList rest).isSome

/-- Match the whole pattern `\d{3}-(skills|courses|mission).docx` at the
start of the character list, returning the id group and the lowercased
category group. -/
def matchHere : List Char → Option (String × String)
  | d1 :: d2 :: d3 :: '-' :: rest =>
    if d1.isDigit && d2.isDigit && d3.isDigit then
      match matchCat rest with
      | some (cat, r) => if matchTail r then some (String.mk [d1, d2, d3], cat) else none
      | none => none
    else none
  | _ => none

/-- `re.search`: try the pattern at every position, leftmost match wins. -/
def searchFrom : List Char → Option (String × String)
  | [] => none
  | c :: cs =>
    match matchHere (c :: cs) with
    | some r => some r
    | none => searchFrom cs

/-- `re.search(pattern, name, re.IGNORECASE)` together with the two named
groups (`id`, lowercased `category`), as used on line 66 of the script. -/
def searchPattern (name : String) : Option (String × String) :=
  searchFrom name.data

/-- A degree bucket: category → file name, insertion-ordered (a Python dict). -/
abbrev Bucket := List (String × String)

/-- The `documents` mapping: degree id → bucket, insertion-ordered. -/
abbrev Documents := List (String × Bucket)

/-- Dict lookup in a bucket (`docs.get(category)`). -/
def lookupCat : Bucket → String → Option String
  | [], _ => none
  | (c, f) :: rest, cat => if c = cat then some f else lookupCat rest cat

/-- Dict assignment `bucket[cat] = f`: overwrite in place, else append. -/
def setIn : Bucket → String → String → Bucket
  | [], cat, f => [(cat, f)]
  | (c, g) :: rest, cat, f =>
    if c = cat then (cat, f) :: rest else (c, g) :: setIn rest cat f

/-- Dict lookup `documents[id]`. -/
def getBucket : Documents → String → Option Bucket
  | [], _ => none
  | (i, b) :: rest, id => if i = id then some b else getBucket rest id

/-- `documents[id][cat] = f`, creating the inner dict when absent. -/
def addDoc : Documents → String → String → String → Documents
  | [], id, cat, f => [(id, [(cat, f)])]
  | (i, b) :: rest, id, cat, f =>
    if i = id then (i, setIn b cat f) :: rest else (i, b) :: addDoc rest id cat f

/-- Two-level lookup `documents[id][cat]`. -/
def lookup2 (docs : Documents) (id cat : String) : Option String :=
  match getBucket docs id with
  | some b => lookupCat b cat
  | none => none

/-- One iteration of the classification loop (lines 64-71): on a regex match
record the file under `(id, category.lower())`, otherwise leave it alone. -/
def classifyStep (docs : Documents) (f : String) : Documents :=
  match searchPattern f with
  | some (id, cat) => addDoc docs id cat f
  | none => docs

/-- The classification loop over the globbed input listing. -/
def classify (files : List String) : Documents :=
  files.foldl classifyStep []

/-- Readable document contents: file name → paragraph texts.  A name absent
from the list models a file `docx.Document` cannot open. -/
abbrev ContentDb := List (String × List String)

/-- `docx.Document(f)` followed by extracting the paragraph texts. -/
def readDoc : ContentDb → String → Option (List String)
  | [], _ => none
  | (g, ps) :: rest, f => if g = f then some ps else readDoc rest f

/-- `'\n'.join([p.text for p in doc.paragraphs])`. -/
def joinParas (ps : List String) : String := String.intercalate "\n" ps

/-- The filesystem: names still in the input directory plus the contents of
the five output directories.  A descriptions entry carries the paragraphs of
the newly created document. -/
structure FS where
  input : List String
  descriptions : List (String × List String)
  incomplete : List String
  courses : List String
  error : List String
  unknown : List String
deriving Repr, DecidableEq

/-- `path.rename(target / path.name)`: the file leaves the input listing. -/
def removeFile (l : List String) (f : String) : List String :=
  l.filter (fun g => decide (g ≠ f))

/-- Remove a list of files from a listing, in order. -/
def removeAll (l : List String) : List String → List String
  | [] => l
  | f :: rest => removeAll (removeFile l f) rest

/-- The per-degree body of the processing loop (lines 74-116): archive the
courses file, merge a complete non-empty mission/skills pair into a new
description document, move empty-text members of a complete pair to `error`,
move a lone mission or skills file to `incomplete`.  `docx.Document` failures
surface as `Except.error` carrying the offending file name. -/
def processDegree (content : ContentDb) (st : FS) (degree : String) (b : Bucket) :
    Except String FS :=
  let skills := lookupCat b "skills"
  let mission := lookupCat b "mission"
  let courses := lookupCat b "courses"
  let st1 :=
    match courses with
    | some c => { st with input := removeFile st.input c, courses := st.courses ++ [c] }
    | none => st
  match mission, skills with
  | some m, some s =>
    match readDoc content m with
    | none => Except.error m
    | some mp =>
      match readDoc content s with
      | none => Except.error s
      | some sp =>
        if joinParas mp ≠ "" ∧ joinParas sp ≠ "" then
          Except.ok { st1 with descriptions :=
            st1.descriptions ++ [(degree ++ "-description.docx", [joinParas mp, joinParas sp])] }
        else
          let st2 :=
            if joinParas mp = "" then
              { st1 with input := removeFile st1.input m, error := st1.error ++ [m] }
            else st1
          let st3 :=
            if joinParas sp = "" then
              { st2 with input := removeFile st2.input s, error := st2.error ++ [s] }
            else st2
          Except.ok st3
  | some m, none =>
    Except.ok { st1 with input := removeFile st1.input m, incomplete := st1.incomplete ++ [m] }
  | none, some s =>
    Except.ok { st1 with input := removeFile st1.input s, incomplete := st1.incomplete ++ [s] }
  | none, none => Except.ok st1

/-- The processing loop over all degree buckets, in insertion order. -/
def processAll (content : ContentDb) : FS → Documents → Except String FS
  | st, [] => Except.ok st
  | st, (id, b) :: rest =>
    match processDegree content st id b with
    | Except.error e => Except.error e
    | Except.ok st' => processAll content st' rest

/-- The file names stored in one bucket (`docs.values()`). -/
def bucketFiles (b : Bucket) : List String := b.map Prod.snd

/-- The `known` set (lines 119-121): every file name held by some bucket. -/
def knownFiles : Documents → List String
  | [] => []
  | (_, b) :: rest => bucketFiles b ++ knownFiles rest

/-- The sweeper (lines 123-126): every file still in the input directory that
is not a known bucket value is moved to the unknown directory. -/
def sweep (known : List String) (st : FS) : FS :=
  { st with
    input := st.input.filter (fun f => decide (f ∈ known))
    unknown := st.unknown ++ st.input.filter (fun f => decide (f ∉ known)) }

/-- `INPUT.glob('*.docx')` over the directory listing: keep the names whose
character sequence ends in `.docx`. -/
def globFilter (files : List String) : List String :=
  files.filter (fun f => ".docx".data.reverse.isPrefixOf f.data.reverse)

/-- The initial filesystem: everything sits in the input directory. -/
def initFS (files : List String) : FS := ⟨files, [], [], [], [], []⟩

/-- The whole run of `main`: classify the globbed listing, process each
degree, then sweep.  An uncaught `docx` exception aborts the run before the
sweeper executes. -/
def run (files : List String) (content : ContentDb) : Except String FS :=
  match processAll content (initFS files) (classify (globFilter files)) with
  | Except.error e => Except.error e
  | Except.ok st1 => Except.ok (sweep (knownFiles (classify (globFilter files))) st1)

/-! ### Basic lemmas on listings and buckets -/

theorem mem_removeFile {l : List String} {f g : String} :
    g ∈ removeFile l f ↔ g ∈ l ∧ g ≠ f := by
  simp [removeFile, List.mem_filter]

theorem mem_removeAll {rm : List String} :
    ∀ {l : List String} {g : String}, g ∈ removeAll l rm ↔ g ∈ l ∧ g ∉ rm := by
  induction rm with
  | nil => simp [removeAll]
  | cons f rest ih =>
      intro l g
      simp only [removeAll, ih, mem_removeFile, List.mem_cons]
      constructor
      · rintro ⟨⟨hl, hne⟩, hrest⟩
        exact ⟨hl, by simp [hne, hrest]⟩
      · rintro ⟨hl, hnot⟩
        simp only [not_or] at hnot
        exact ⟨⟨hl, hnot.1⟩, hnot.2⟩

theorem removeAll_append (l xs ys : List String) :
    removeAll l (xs ++ ys) = removeAll (removeAll l xs) ys := by
  induction xs generalizing l with
  | nil => simp [removeAll]
  | cons f rest ih => simp [removeAll, ih]

theorem lookupCat_setIn (b : Bucket) (c f cat : String) :
    lookupCat (setIn b c f) cat = if c = cat then some f else lookupCat b cat := by
  induction b with
  | nil => simp [setIn, lookupCat]
  | cons p rest ih =>
      obtain ⟨c', g⟩ := p
      by_cases hc : c' = c
      · subst hc
        by_cases hcat : c' = cat <;> simp [setIn, lookupCat, hcat]
      · by_cases hcat : c' = cat
        · subst hcat
          simp [setIn, lookupCat, hc, Ne.symm hc]
        · simp [setIn, lookupCat, hc, hcat, ih]

theorem lookup2_addDoc (docs : Documents) (i c f id cat : String) :
    lookup2 (addDoc docs i c f) id cat =
      if i = id ∧ c = cat then some f else lookup2 docs id cat := by
  induction docs with
  | nil =>
      by_cases hid : i = id
      · subst hid
        by_cases hcat : c = cat <;>
          simp [addDoc, lookup2, getBucket, lookupCat, hcat]
      · simp [addDoc, lookup2, getBucket, hid]
  | cons p rest ih =>
      obtain ⟨j, b⟩ := p
      by_cases hj : j = i
      · subst hj
        by_cases hid : j = id
        · subst hid
          simp [addDoc, lookup2, getBucket, lookupCat_setIn]
        · simp [addDoc, lookup2, getBucket, hid]
      · by_cases hid : j = id
        · subst hid
          simp [addDoc, lookup2, getBucket, hj, Ne.symm hj]
        · simpa [addDoc, lookup2, getBucket, hj, hid] using ih

/-- Last element of a list, with a default used when the list is empty. -/
def lastOr : List α → Option α → Option α
  | [], d => d
  | x :: xs, _ => lastOr xs (some x)

theorem lastOr_append (xs ys : List α) (d : Option α) :
    lastOr (xs ++ ys) d = lastOr ys (lastOr xs d) := by
  induction xs generalizing d with
  | nil => cases ys <;> simp [lastOr]
  | cons x xs ih => simp [lastOr, ih]

theorem lastOr_eq_some {xs : List α} {d : Option α} {v : α}
    (h : lastOr xs d = some v) : v ∈ xs ∨ d = some v := by
  induction xs generalizing d with
  | nil => exact Or.inr h
  | cons x xs ih =>
      rcases ih h with h' | h'
      · exact Or.inl (List.mem_cons_of_mem _ h')
      · cases h'
        exact Or.inl (List.mem_cons_self _ _)

/-! ### Characterizing classification -/

theorem foldl_classify_lookup2 (l : List String) (docs : Documents) (id cat : String) :
    lookup2 (l.foldl classifyStep docs) id cat =
      lastOr (l.filter (fun f => decide (searchPattern f = some (id, cat))))
        (lookup2 docs id cat) := by
  induction l generalizing docs with
  | nil => simp [lastOr]
  | cons f rest ih =>
      rcases hf : searchPattern f with _ | ⟨i, c⟩
      · have hne : ¬ searchPattern f = some (id, cat) := by simp [hf]
        simp [List.foldl_cons, classifyStep, hf, List.filter_cons, hne, ih]
      · by_cases hic : i = id ∧ c = cat
        · have heq : searchPattern f = some (id, cat) := by
            rw [hf, hic.1, hic.2]
          simp [List.foldl_cons, classifyStep, hf, List.filter_cons, heq, ih,
            lookup2_addDoc, hic, lastOr]
        · have hne : ¬ searchPattern f = some (id, cat) := by
            simp only [hf, Option.some_inj]
            intro h
            exact hic ⟨congrArg Prod.fst h, congrArg Prod.snd h⟩
          simp [List.foldl_cons, classifyStep, hf, List.filter_cons, hne, ih,
            lookup2_addDoc, hic]

theorem classify_lookup2 (l : List String) (id cat : String) :
    lookup2 (classify l) id cat =
      lastOr (l.filter (fun f => decide (searchPattern f = some (id, cat)))) none := by
  simpa [classify, lookup2, getBucket] using foldl_classify_lookup2 l [] id cat

theorem lookup2_classify_some {l : List String} {id cat v : String}
    (h : lookup2 (classify l) id cat = some v) :
    searchPattern v = some (id, cat) ∧ v ∈ l := by
  rw [classify_lookup2] at h
  rcases lastOr_eq_some h with hm | hm
  · have := List.mem_filter.mp hm
    refine ⟨by simpa using this.2, this.1⟩
  · cases hm

/-! ### Degree ids are unique in the classification mapping -/

/-- The degree ids, in insertion order. -/
def keys (docs : Documents) : List String := docs.map Prod.fst

theorem keys_addDoc (docs : Documents) (i c f : String) :
    keys (addDoc docs i c f) =
      if i ∈ keys docs then keys docs else keys docs ++ [i] := by
  induction docs with
  | nil => simp [addDoc, keys]
  | cons p rest ih =>
      obtain ⟨j, b⟩ := p
      by_cases hj : j = i
      · subst hj
        simp [addDoc, keys]
      · have hadd : addDoc ((j, b) :: rest) i c f = (j, b) :: addDoc rest i c f := by
          simp [addDoc, hj]
        have hkeys : keys ((j, b) :: rest) = j :: keys rest := rfl
        by_cases hi : i ∈ keys rest
        · have hmem : i ∈ j :: keys rest := List.mem_cons_of_mem _ hi
          rw [hadd]
          show j :: keys (addDoc rest i c f) = _
          rw [ih, if_pos hi, hkeys, if_pos hmem]
        · have hmem : i ∉ j :: keys rest := by
            simp only [List.mem_cons, not_or]
            exact ⟨Ne.symm hj, hi⟩
          rw [hadd]
          show j :: keys (addDoc rest i c f) = _
          rw [ih, if_neg hi, hkeys, if_neg hmem]
          rfl

theorem keys_nodup_addDoc {docs : Documents} (h : (keys docs).Nodup)
    (i c f : String) : (keys (addDoc docs i c f)).Nodup := by
  rw [keys_addDoc]
  by_cases hi : i ∈ keys docs
  · simpa [hi] using h
  · simp only [hi, if_false]
    simpa [List.nodup_append] using ⟨h, hi⟩

theorem keys_nodup_foldl {l : List String} :
    ∀ {docs : Documents}, (keys docs).Nodup → (keys (l.foldl classifyStep docs)).Nodup := by
  induction l with
  | nil => exact fun h => h
  | cons f rest ih =>
      intro docs h
      simp only [List.foldl_cons]
      apply ih
      unfold classifyStep
      rcases searchPattern f with _ | ⟨i, c⟩
      · exact h
      · exact keys_nodup_addDoc h i c f

theorem classify_keys_nodup (l : List String) : (keys (classify l)).Nodup :=
  keys_nodup_foldl (by simp [keys])

theorem getBucket_of_mem {docs : Documents} {id : String} {b : Bucket}
    (hnd : (keys docs).Nodup) (hb : (id, b) ∈ docs) :
    getBucket docs id = some b := by
  induction docs with
  | nil => cases hb
  | cons p rest ih =>
      obtain ⟨j, b'⟩ := p
      rcases List.mem_cons.mp hb with h | h
      · have h1 : id = j := congrArg Prod.fst h
        have h2 : b = b' := congrArg Prod.snd h
        subst h1
        subst h2
        simp [getBucket]
      · have hnd2 : (j :: keys rest).Nodup := hnd
        have hj_not : j ∉ keys rest := (List.nodup_cons.mp hnd2).1
        have hnd' : (keys rest).Nodup := (List.nodup_cons.mp hnd2).2
        have hid_mem : id ∈ keys rest := by
          simpa [keys] using List.mem_map_of_mem Prod.fst h
        have hj : j ≠ id := fun hji => hj_not (hji ▸ hid_mem)
        simp [getBucket, hj, ih hnd' h]

/-- A bucket entry of the classification mapping is the two-level lookup:
the claimed slot of a degree member. -/
theorem mem_classify_lookup2 {l : List String} {id : String} {b : Bucket}
    {cat v : String} (hb : (id, b) ∈ classify l) (hv : lookupCat b cat = some v) :
    lookup2 (classify l) id cat = some v := by
  unfold lookup2
  rw [getBucket_of_mem (classify_keys_nodup l) hb]
  exact hv

/-- Every claimed slot value was matched by the pattern with exactly the slot
ids and lies in the classified listing. -/
theorem slot_value_search {l : List String} {id : String} {b : Bucket}
    {cat v : String} (hb : (id, b) ∈ classify l) (hv : lookupCat b cat = some v) :
    searchPattern v = some (id, cat) ∧ v ∈ l :=
  lookup2_classify_some (mem_classify_lookup2 hb hv)

/-- Two distinct slots of the classification mapping hold distinct files. -/
theorem slot_values_distinct {l : List String} {id id' : String} {b b' : Bucket}
    {cat cat' v v' : String} (hb : (id, b) ∈ classify l) (hv : lookupCat b cat = some v)
    (hb' : (id', b') ∈ classify l) (hv' : lookupCat b' cat' = some v')
    (hne : (id, cat) ≠ (id', cat')) : v ≠ v' := by
  intro he
  subst he
  have h1 := (slot_value_search hb hv).1
  have h2 := (slot_value_search hb' hv').1
  rw [h1] at h2
  exact hne (Option.some_inj.mp h2)

/-! ### The known set -/

theorem bucketFiles_setIn_sub {b : Bucket} {cat g f : String}
    (h : f ∈ bucketFiles (setIn b cat g)) : f = g ∨ f ∈ bucketFiles b := by
  induction b with
  | nil => simpa [setIn, bucketFiles] using h
  | cons p rest ih =>
      obtain ⟨c, x⟩ := p
      by_cases hc : c = cat
      · subst hc
        rcases (by simpa [setIn, bucketFiles] using h) with h' | h'
        · exact Or.inl h'
        · exact Or.inr (by simp [bucketFiles, h'])
      · rcases (by simpa [setIn, bucketFiles, hc] using h) with h' | h'
        · exact Or.inr (by simp [bucketFiles, h'])
        · rcases ih (by simpa [bucketFiles] using h') with h'' | h''
          · exact Or.inl h''
          · exact Or.inr (by simp [bucketFiles]; right; simpa [bucketFiles] using h'')

theorem knownFiles_addDoc_sub {docs : Documents} {id cat g f : String}
    (h : f ∈ knownFiles (addDoc docs id cat g)) : f = g ∨ f ∈ knownFiles docs := by
  induction docs with
  | nil => simpa [addDoc, knownFiles, bucketFiles] using h
  | cons p rest ih =>
      obtain ⟨j, b⟩ := p
      by_cases hj : j = id
      · subst hj
        rcases (by simpa [addDoc, knownFiles] using h : _ ∨ _) with h' | h'
        · rcases bucketFiles_setIn_sub h' with h'' | h''
          · exact Or.inl h''
          · exact Or.inr (by simp [knownFiles, List.mem_append]; exact Or.inl h'')
        · exact Or.inr (by simp [knownFiles, List.mem_append]; exact Or.inr h')
      · rcases (by simpa [addDoc, hj, knownFiles] using h : _ ∨ _) with h' | h'
        · exact Or.inr (by simp [knownFiles, List.mem_append]; exact Or.inl h')
        · rcases ih h' with h'' | h''
          · exact Or.inl h''
          · exact Or.inr (by simp [knownFiles, List.mem_append]; exact Or.inr h'')

theorem knownFiles_foldl_sub {l : List String} :
    ∀ {docs : Documents} {f : String}, f ∈ knownFiles (l.foldl classifyStep docs) →
      f ∈ knownFiles docs ∨ (f ∈ l ∧ searchPattern f ≠ none) := by
  induction l with
  | nil => exact fun h => Or.inl h
  | cons g rest ih =>
      intro docs f h
      simp only [List.foldl_cons] at h
      rcases ih h with h' | h'
      · unfold classifyStep at h'
        rcases hg : searchPattern g with _ | ⟨i, c⟩
        · rw [hg] at h'
          exact Or.inl h'
        · rw [hg] at h'
          rcases knownFiles_addDoc_sub h' with h'' | h''
          · subst h''
            exact Or.inr ⟨List.mem_cons_self _ _, by simp [hg]⟩
          · exact Or.inl h''
      · exact Or.inr ⟨List.mem_cons_of_mem _ h'.1, h'.2⟩

/-- Every known file was matched by the pattern and lies in the listing. -/
theorem mem_knownFiles_classify {l : List String} {f : String}
    (h : f ∈ knownFiles (classify l)) : f ∈ l ∧ searchPattern f ≠ none := by
  rcases knownFiles_foldl_sub h with h' | h'
  · simp [knownFiles] at h'
  · exact h'

theorem lookupCat_mem_bucketFiles {b : Bucket} {cat v : String}
    (hv : lookupCat b cat = some v) : v ∈ bucketFiles b := by
  induction b with
  | nil => cases hv
  | cons q rb ih =>
      obtain ⟨c, x⟩ := q
      by_cases hc : c = cat
      · rw [lookupCat, if_pos hc] at hv
        simp only [bucketFiles, List.map_cons, List.mem_cons]
        exact Or.inl (Option.some_inj.mp hv).symm
      · rw [lookupCat, if_neg hc] at hv
        simp only [bucketFiles, List.map_cons, List.mem_cons]
        exact Or.inr (ih hv)

/-- A claimed slot value is in the known set. -/
theorem slot_value_mem_known {docs : Documents} {id : String} {b : Bucket}
    {cat v : String} (hb : (id, b) ∈ docs) (hv : lookupCat b cat = some v) :
    v ∈ knownFiles docs := by
  induction docs with
  | nil => cases hb
  | cons p rest ih =>
      obtain ⟨j, b'⟩ := p
      rcases List.mem_cons.mp hb with h | h
      · have h2 : b = b' := congrArg Prod.snd h
        subst h2
        show v ∈ bucketFiles b ++ knownFiles rest
        exact List.mem_append.mpr (Or.inl (lookupCat_mem_bucketFiles hv))
      · show v ∈ bucketFiles b' ++ knownFiles rest
        exact List.mem_append.mpr (Or.inr (ih h))

/-! ### Per-degree contributions of the processing loop -/

/-- The description entries the processing of one degree appends. -/
def degreeDesc (content : ContentDb) (degree : String) (b : Bucket) :
    List (String × List String) :=
  match lookupCat b "mission", lookupCat b "skills" with
  | some m, some s =>
    match readDoc content m, readDoc content s with
    | some mp, some sp =>
      if joinParas mp ≠ "" ∧ joinParas sp ≠ "" then
        [(degree ++ "-description.docx", [joinParas mp, joinParas sp])]
      else []
    | _, _ => []
  | _, _ => []

/-- The files the processing of one degree moves to the error directory. -/
def degreeErr (content : ContentDb) (b : Bucket) : List String :=
  match lookupCat b "mission", lookupCat b "skills" with
  | some m, some s =>
    match readDoc content m, readDoc content s with
    | some mp, some sp =>
      if joinParas mp ≠ "" ∧ joinParas sp ≠ "" then []
      else (if joinParas mp = "" then [m] else []) ++
        (if joinParas sp = "" then [s] else [])
    | _, _ => []
  | _, _ => []

/-- The files the processing of one degree moves to the incomplete directory. -/
def degreeInc (b : Bucket) : List String :=
  match lookupCat b "mission", lookupCat b "skills" with
  | some _, some _ => []
  | some m, none => [m]
  | none, some s => [s]
  | none, none => []

/-- The files the processing of one degree moves to the courses directory. -/
def degreeCrs (b : Bucket) : List String :=
  match lookupCat b "courses" with
  | some c => [c]
  | none => []

/-- All files one degree moves out of the input directory, in move order. -/
def degreeMoved (content : ContentDb) (b : Bucket) : List String :=
  degreeCrs b ++ degreeErr content b ++ degreeInc b

def descAll (content : ContentDb) : Documents → List (String × List String)
  | [] => []
  | (id, b) :: rest => degreeDesc content id b ++ descAll content rest

def errAll (content : ContentDb) : Documents → List String
  | [] => []
  | (_, b) :: rest => degreeErr content b ++ errAll content rest

def incAll : Documents → List String
  | [] => []
  | (_, b) :: rest => degreeInc b ++ incAll rest

def crsAll : Documents → List String
  | [] => []
  | (_, b) :: rest => degreeCrs b ++ crsAll rest

def movedAll (content : ContentDb) : Documents → List String
  | [] => []
  | (_, b) :: rest => degreeMoved content b ++ movedAll content rest

/-- Full characterization of a successful per-degree step: each output
directory grows by exactly that degree's contribution, the unknown directory
is untouched, and the input listing loses exactly the moved files. -/
theorem processDegree_ok_spec {content : ContentDb} {st : FS} {degree : String}
    {b : Bucket} {st' : FS} (h : processDegree content st degree b = Except.ok st') :
    st'.descriptions = st.descriptions ++ degreeDesc content degree b ∧
    st'.error = st.error ++ degreeErr content b ∧
    st'.incomplete = st.incomplete ++ degreeInc b ∧
    st'.courses = st.courses ++ degreeCrs b ∧
    st'.unknown = st.unknown ∧
    st'.input = removeAll st.input (degreeMoved content b) := by
  unfold processDegree at h
  unfold degreeMoved degreeDesc degreeErr degreeInc degreeCrs
  rcases hm : lookupCat b "mission" with _ | m
  · rcases hs : lookupCat b "skills" with _ | s
    · rcases hc : lookupCat b "courses" with _ | c <;>
        simp only [hm, hs, hc] at h ⊢ <;> cases h <;> simp [removeAll]
    · rcases hc : lookupCat b "courses" with _ | c <;>
        simp only [hm, hs, hc] at h ⊢ <;> cases h <;> simp [removeAll]
  · rcases hs : lookupCat b "skills" with _ | s
    · rcases hc : lookupCat b "courses" with _ | c <;>
        simp only [hm, hs, hc] at h ⊢ <;> cases h <;> simp [removeAll]
    · rcases hc : lookupCat b "courses" with _ | c <;>
        simp only [hm, hs, hc] at h ⊢ <;>
        (rcases hmp : readDoc content m with _ | mp <;> simp only [hmp] at h ⊢
         · cases h
         · rcases hsp : readDoc content s with _ | sp <;> simp only [hsp] at h ⊢
           · cases h
           · by_cases hm0 : joinParas mp = ""
             · have hcond : ¬(joinParas mp ≠ "" ∧ joinParas sp ≠ "") := fun hx => hx.1 hm0
               simp only [if_neg hcond] at h ⊢
               by_cases hs0 : joinParas sp = ""
               · simp only [if_pos hm0, if_pos hs0] at h ⊢
                 cases h
                 simp [removeAll]
               · simp only [if_pos hm0, if_neg hs0] at h ⊢
                 cases h
                 simp [removeAll]
             · by_cases hs0 : joinParas sp = ""
               · have hcond : ¬(joinParas mp ≠ "" ∧ joinParas sp ≠ "") := fun hx => hx.2 hs0
                 simp only [if_neg hcond] at h ⊢
                 simp only [if_neg hm0, if_pos hs0] at h ⊢
                 cases h
                 simp [removeAll]
               · have hcond : joinParas mp ≠ "" ∧ joinParas sp ≠ "" := ⟨hm0, hs0⟩
                 simp only [if_pos hcond] at h ⊢
                 cases h
                 simp [removeAll])

/-- Full characterization of a successful processing loop. -/
theorem processAll_ok_spec {content : ContentDb} {docs : Documents} :
    ∀ {st st' : FS}, processAll content st docs = Except.ok st' →
    st'.descriptions = st.descriptions ++ descAll content docs ∧
    st'.error = st.error ++ errAll content docs ∧
    st'.incomplete = st.incomplete ++ incAll docs ∧
    st'.courses = st.courses ++ crsAll docs ∧
    st'.unknown = st.unknown ∧
    st'.input = removeAll st.input (movedAll content docs) := by
  induction docs with
  | nil =>
      intro st st' h
      cases h
      simp [descAll, errAll, incAll, crsAll, movedAll, removeAll]
  | cons p rest ih =>
      intro st st' h
      obtain ⟨id, b⟩ := p
      rcases hd : processDegree content st id b with e | st1
      · rw [processAll, hd] at h
        cases h
      · rw [processAll, hd] at h
        obtain ⟨d1, e1, i1, c1, u1, n1⟩ := processDegree_ok_spec hd
        obtain ⟨d2, e2, i2, c2, u2, n2⟩ := ih h
        refine ⟨?_, ?_, ?_, ?_, ?_, ?_⟩
        · rw [d2, d1, descAll, List.append_assoc]
        · rw [e2, e1, errAll, List.append_assoc]
        · rw [i2, i1, incAll, List.append_assoc]
        · rw [c2, c1, crsAll, List.append_assoc]
        · rw [u2, u1]
        · rw [n2, n1, movedAll, removeAll_append]

/-- Every degree of a successfully processed bucket list was itself processed
successfully from some intermediate state. -/
theorem processAll_ok_mem {content : ContentDb} {docs : Documents} :
    ∀ {st st' : FS}, processAll content st docs = Except.ok st' →
    ∀ p ∈ docs, ∃ s1 s2, processDegree content s1 p.1 p.2 = Except.ok s2 := by
  induction docs with
  | nil =>
      intro st st' _ p hp
      cases hp
  | cons q rest ih =>
      intro st st' h p hp
      obtain ⟨id, b⟩ := q
      rcases hd : processDegree content st id b with e | st1
      · rw [processAll, hd] at h
        cases h
      · rw [processAll, hd] at h
        rcases List.mem_cons.mp hp with h' | h'
        · exact ⟨st, st1, by rw [h']; exact hd⟩
        · exact ih h p h'

/-- A degree with a complete mission/skills pair one of which cannot be read
never processes successfully: `docx.Document` raises. -/
theorem processDegree_read_fail {content : ContentDb} {degree m s : String}
    {b : Bucket} (hm : lookupCat b "mission" = some m)
    (hs : lookupCat b "skills" = some s)
    (hr : readDoc content m = none ∨ readDoc content s = none) :
    ∀ st st', processDegree content st degree b ≠ Except.ok st' := by
  intro st st' h
  unfold processDegree at h
  rcases hmp : readDoc content m with _ | mp
  · simp only [hm, hs, hmp] at h
    exact Except.noConfusion h
  · rcases hr with hr | hr
    · rw [hmp] at hr
      cases hr
    · simp only [hm, hs, hmp, hr] at h
      exact Except.noConfusion h

/-! ### The sweeper and the whole run -/

theorem sweep_fields (known : List String) (st : FS) :
    (sweep known st).descriptions = st.descriptions ∧
    (sweep known st).error = st.error ∧
    (sweep known st).incomplete = st.incomplete ∧
    (sweep known st).courses = st.courses := by
  simp [sweep]

theorem mem_sweep_input {known : List String} {st : FS} {f : String} :
    f ∈ (sweep known st).input ↔ f ∈ st.input ∧ f ∈ known := by
  simp [sweep, List.mem_filter]

theorem mem_sweep_unknown {known : List String} {st : FS} {f : String} :
    f ∈ (sweep known st).unknown ↔ f ∈ st.unknown ∨ (f ∈ st.input ∧ f ∉ known) := by
  simp [sweep, List.mem_filter]

/-- Decomposition of a successful run: the processing loop succeeded and the
final state is the sweep of its result. -/
theorem run_ok_elim {files : List String} {content : ContentDb} {st : FS}
    (h : run files content = Except.ok st) :
    ∃ st1, processAll content (initFS files) (classify (globFilter files)) = Except.ok st1 ∧
      st = sweep (knownFiles (classify (globFilter files))) st1 := by
  unfold run at h
  rcases hp : processAll content (initFS files) (classify (globFilter files)) with e | st1
  · rw [hp] at h
    cases h
  · rw [hp] at h
    exact ⟨st1, rfl, (Option.some_inj.mp (congrArg Except.toOption h)).symm⟩

/-! ### Membership in the accumulated moves -/

theorem mem_errAll {content : ContentDb} {docs : Documents} {f : String}
    (h : f ∈ errAll content docs) :
    ∃ id b, (id, b) ∈ docs ∧ f ∈ degreeErr content b := by
  induction docs with
  | nil => cases h
  | cons p rest ih =>
      obtain ⟨id, b⟩ := p
      rcases List.mem_append.mp h with h' | h'
      · exact ⟨id, b, List.mem_cons_self _ _, h'⟩
      · obtain ⟨id', b', hmem, hf⟩ := ih h'
        exact ⟨id', b', List.mem_cons_of_mem _ hmem, hf⟩

theorem mem_incAll {docs : Documents} {f : String} (h : f ∈ incAll docs) :
    ∃ id b, (id, b) ∈ docs ∧ f ∈ degreeInc b := by
  induction docs with
  | nil => cases h
  | cons p rest ih =>
      obtain ⟨id, b⟩ := p
      rcases List.mem_append.mp h with h' | h'
      · exact ⟨id, b, List.mem_cons_self _ _, h'⟩
      · obtain ⟨id', b', hmem, hf⟩ := ih h'
        exact ⟨id', b', List.mem_cons_of_mem _ hmem, hf⟩

theorem mem_crsAll {docs : Documents} {f : String} (h : f ∈ crsAll docs) :
    ∃ id b, (id, b) ∈ docs ∧ f ∈ degreeCrs b := by
  induction docs with
  | nil => cases h
  | cons p rest ih =>
      obtain ⟨id, b⟩ := p
      rcases List.mem_append.mp h with h' | h'
      · exact ⟨id, b, List.mem_cons_self _ _, h'⟩
      · obtain ⟨id', b', hmem, hf⟩ := ih h'
        exact ⟨id', b', List.mem_cons_of_mem _ hmem, hf⟩

theorem mem_movedAll {content : ContentDb} {docs : Documents} {f : String}
    (h : f ∈ movedAll content docs) :
    ∃ id b, (id, b) ∈ docs ∧ f ∈ degreeMoved content b := by
  induction docs with
  | nil => cases h
  | cons p rest ih =>
      obtain ⟨id, b⟩ := p
      rcases List.mem_append.mp h with h' | h'
      · exact ⟨id, b, List.mem_cons_self _ _, h'⟩
      · obtain ⟨id', b', hmem, hf⟩ := ih h'
        exact ⟨id', b', List.mem_cons_of_mem _ hmem, hf⟩

/-- A courses move is the courses slot value. -/
theorem degreeCrs_slot {b : Bucket} {f : String} (h : f ∈ degreeCrs b) :
    lookupCat b "courses" = some f := by
  unfold degreeCrs at h
  rcases hc : lookupCat b "courses" with _ | c
  · rw [hc] at h
    cases h
  · rw [hc] at h
    have hf : f = c := List.mem_singleton.mp h
    rw [hf]

/-- An error move is the mission or skills slot value. -/
theorem degreeErr_slot {content : ContentDb} {b : Bucket} {f : String}
    (h : f ∈ degreeErr content b) :
    lookupCat b "mission" = some f ∨ lookupCat b "skills" = some f := by
  rcases hm : lookupCat b "mission" with _ | m <;>
    rcases hs : lookupCat b "skills" with _ | s <;>
    unfold degreeErr at h <;>
    simp only [hm, hs, List.not_mem_nil] at h
  rcases hmp : readDoc content m with _ | mp <;>
    rcases hsp : readDoc content s with _ | sp <;>
    simp only [hmp, hsp, List.not_mem_nil] at h
  by_cases hcond : joinParas mp ≠ "" ∧ joinParas sp ≠ ""
  · rw [if_pos hcond] at h
    cases h
  · rw [if_neg hcond] at h
    rcases List.mem_append.mp h with h' | h'
    · by_cases hm0 : joinParas mp = ""
      · rw [if_pos hm0] at h'
        have hf : f = m := List.mem_singleton.mp h'
        rw [hf]
        exact Or.inl rfl
      · rw [if_neg hm0] at h'
        cases h'
    · by_cases hs0 : joinParas sp = ""
      · rw [if_pos hs0] at h'
        have hf : f = s := List.mem_singleton.mp h'
        rw [hf]
        exact Or.inr rfl
      · rw [if_neg hs0] at h'
        cases h'

/-- An incomplete move is the mission or skills slot value. -/
theorem degreeInc_slot {b : Bucket} {f : String} (h : f ∈ degreeInc b) :
    lookupCat b "mission" = some f ∨ lookupCat b "skills" = some f := by
  rcases hm : lookupCat b "mission" with _ | m <;>
    rcases hs : lookupCat b "skills" with _ | s <;>
    unfold degreeInc at h <;>
    simp only [hm, hs, List.not_mem_nil] at h
  · have hf : f = s := List.mem_singleton.mp h
    rw [hf]
    exact Or.inr rfl
  · have hf : f = m := List.mem_singleton.mp h
    rw [hf]
    exact Or.inl rfl

/-- Every file a degree moves is one of its own slot values. -/
theorem degreeMoved_slot {content : ContentDb} {b : Bucket} {f : String}
    (h : f ∈ degreeMoved content b) : ∃ cat, lookupCat b cat = some f := by
  unfold degreeMoved at h
  rcases List.mem_append.mp h with h' | h'
  · rcases List.mem_append.mp h' with h'' | h''
    · exact ⟨"courses", degreeCrs_slot h''⟩
    · rcases degreeErr_slot h'' with hx | hx
      · exact ⟨"mission", hx⟩
      · exact ⟨"skills", hx⟩
  · rcases degreeInc_slot h' with hx | hx
    · exact ⟨"mission", hx⟩
    · exact ⟨"skills", hx⟩

/-! ### Description names determine their degree -/

theorem string_data_append (a b : String) : (a ++ b).data = a.data ++ b.data := by
  cases a
  cases b
  rfl

theorem append_right_cancel_str {a b s : String} (h : a ++ s = b ++ s) : a = b := by
  have hd : a.data ++ s.data = b.data ++ s.data := by
    rw [← string_data_append, ← string_data_append, h]
  have hab : a.data = b.data := List.append_cancel_right hd
  cases a
  cases b
  exact congrArg String.mk hab

theorem degreeDesc_fst {content : ContentDb} {degree : String} {b : Bucket}
    {e : String × List String} (h : e ∈ degreeDesc content degree b) :
    e.1 = degree ++ "-description.docx" := by
  rcases hm : lookupCat b "mission" with _ | m <;>
    rcases hs : lookupCat b "skills" with _ | s <;>
    unfold degreeDesc at h <;>
    simp only [hm, hs, List.not_mem_nil] at h
  rcases hmp : readDoc content m with _ | mp <;>
    rcases hsp : readDoc content s with _ | sp <;>
    simp only [hmp, hsp, List.not_mem_nil] at h
  by_cases hcond : joinParas mp ≠ "" ∧ joinParas sp ≠ ""
  · rw [if_pos hcond] at h
    rw [List.mem_singleton.mp h]
  · rw [if_neg hcond] at h
    cases h

theorem bucket_unique {l : List String} {id : String} {b b' : Bucket}
    (hb : (id, b) ∈ classify l) (hb' : (id, b') ∈ classify l) : b = b' := by
  have h1 := getBucket_of_mem (classify_keys_nodup l) hb
  have h2 := getBucket_of_mem (classify_keys_nodup l) hb'
  rw [h1] at h2
  exact Option.some_inj.mp h2

theorem descAll_filter_nil {content : ContentDb} {docs : Documents} {degree : String}
    (hnot : degree ∉ keys docs) :
    (descAll content docs).filter
      (fun e => decide (e.1 = degree ++ "-description.docx")) = [] := by
  induction docs with
  | nil => rfl
  | cons p rest ih =>
      obtain ⟨id, b⟩ := p
      have hid : id ≠ degree := by
        intro he
        exact hnot (by simp [keys, he])
      have hrest : degree ∉ keys rest := by
        intro hx
        exact hnot (by simp only [keys, List.map_cons, List.mem_cons]; exact Or.inr hx)
      rw [descAll, List.filter_append, ih hrest, List.append_nil]
      rw [List.filter_eq_nil_iff]
      intro e he
      simp only [decide_eq_true_eq]
      intro hcontra
      rw [degreeDesc_fst he] at hcontra
      exact hid (append_right_cancel_str hcontra)

/-- In the classification mapping, the description names of one degree come
only from that degree's bucket. -/
theorem descAll_filter_eq {content : ContentDb} {docs : Documents} {degree : String}
    {b : Bucket} (hnd : (keys docs).Nodup) (hb : (degree, b) ∈ docs) :
    (descAll content docs).filter
      (fun e => decide (e.1 = degree ++ "-description.docx")) =
      degreeDesc content degree b := by
  induction docs with
  | nil => cases hb
  | cons p rest ih =>
      obtain ⟨id, b'⟩ := p
      have hnd2 : (id :: keys rest).Nodup := hnd
      rcases List.mem_cons.mp hb with h | h
      · injection h with h1 h2
        subst h1
        subst h2
        rw [descAll, List.filter_append]
        have hnotin : degree ∉ keys rest := (List.nodup_cons.mp hnd2).1
        rw [descAll_filter_nil hnotin, List.append_nil]
        rw [List.filter_eq_self]
        intro e he
        simp only [decide_eq_true_eq]
        exact degreeDesc_fst he
      · have hmem : degree ∈ keys rest := by
          simpa [keys] using List.mem_map_of_mem Prod.fst h
        have hid : id ≠ degree := by
          intro he
          exact (List.nodup_cons.mp hnd2).1 (he ▸ hmem)
        rw [descAll, List.filter_append]
        have h1 : (degreeDesc content id b').filter
            (fun e => decide (e.1 = degree ++ "-description.docx")) = [] := by
          rw [List.filter_eq_nil_iff]
          intro e he
          simp only [decide_eq_true_eq]
          intro hcontra
          rw [degreeDesc_fst he] at hcontra
          exact hid (append_right_cancel_str hcontra)
        rw [h1, List.nil_append]
        exact ih (List.nodup_cons.mp hnd2).2 h

/-! ### The pattern on well-formed filenames -/

theorem stripCI_of_lower (cs r : List Char) :
    stripCI (cs.map Char.toLower) (cs ++ r) = some r := by
  induction cs with
  | nil => rfl
  | cons c cs ih => simp [stripCI, ih]

theorem stripCI_ne_head {a : Char} {w cs : List Char} {c : Char}
    (h : c.toLower ≠ a) : stripCI (a :: w) (c :: cs) = none := by
  simp [stripCI, h]

theorem mk_data (s : String) : String.mk s.data = s := by
  cases s
  rfl

/-- The category alternation on any case variant of one of its three words
matches that word and consumes exactly it. -/
theorem matchCat_variant {w : String} {tok r : List Char}
    (hw : w = "skills" ∨ w = "courses" ∨ w = "mission")
    (htok : tok.map Char.toLower = w.data) :
    matchCat (tok ++ r) = some (w, r) := by
  rcases hw with hw | hw | hw <;> subst hw
  · unfold matchCat
    have h1 : stripCI "skills".toList (tok ++ r) = some r := by
      have he : ("skills" : String).toList = tok.map Char.toLower := htok.symm
      rw [he, stripCI_of_lower]
    rw [h1]
  · rcases tok with _ | ⟨c0, tok1⟩
    · simp at htok
    · rw [List.map_cons] at htok
      injection htok with h1 h2
      unfold matchCat
      have hs1 : stripCI "skills".toList ((c0 :: tok1) ++ r) = none := by
        have he : ("skills" : String).toList = 's' :: "kills".toList := rfl
        rw [he, List.cons_append]
        apply stripCI_ne_head
        rw [h1]
        decide
      rw [hs1]
      have hc1 : stripCI "courses".toList ((c0 :: tok1) ++ r) = some r := by
        have he : ("courses" : String).toList = (c0 :: tok1).map Char.toLower := by
          rw [List.map_cons, h1, h2]
          rfl
        rw [he, stripCI_of_lower]
      rw [hc1]
  · rcases tok with _ | ⟨c0, tok1⟩
    · simp at htok
    · rw [List.map_cons] at htok
      injection htok with h1 h2
      unfold matchCat
      have hs1 : stripCI "skills".toList ((c0 :: tok1) ++ r) = none := by
        have he : ("skills" : String).toList = 's' :: "kills".toList := rfl
        rw [he, List.cons_append]
        apply stripCI_ne_head
        rw [h1]
        decide
      rw [hs1]
      have hc1 : stripCI "courses".toList ((c0 :: tok1) ++ r) = none := by
        have he : ("courses" : String).toList = 'c' :: "ourses".toList := rfl
        rw [he, List.cons_append]
        apply stripCI_ne_head
        rw [h1]
        decide
      rw [hc1]
      have hm1 : stripCI "mission".toList ((c0 :: tok1) ++ r) = some r := by
        have he : ("mission" : String).toList = (c0 :: tok1).map Char.toLower := by
          rw [List.map_cons, h1, h2]
          rfl
        rw [he, stripCI_of_lower]
      rw [hm1]

/-- The full pattern matches at the start of a well-formed filename. -/
theorem matchHere_valid {d1 d2 d3 : Char} {w : String} {tok : List Char}
    (hd1 : d1.isDigit = true) (hd2 : d2.isDigit = true) (hd3 : d3.isDigit = true)
    (hw : w = "skills" ∨ w = "courses" ∨ w = "mission")
    (htok : tok.map Char.toLower = w.data) :
    matchHere (d1 :: d2 :: d3 :: '-' :: (tok ++ ".docx".data)) =
      some (String.mk [d1, d2, d3], w) := by
  have hcat : matchCat (tok ++ ".docx".data) = some (w, ".docx".data) :=
    matchCat_variant hw htok
  have htail : matchTail ".docx".data = true := rfl
  simp [matchHere, hd1, hd2, hd3, hcat, htail]

theorem searchFrom_head_some {cs : List Char} {r : String × String}
    (h : matchHere cs = some r) : searchFrom cs = some r := by
  cases cs with
  | nil => cases h
  | cons c cs => simp [searchFrom, h]

/-! ### Final-state characterization of a successful run -/

theorem run_ok_spec {files : List String} {content : ContentDb} {st : FS}
    (h : run files content = Except.ok st) :
    st.descriptions = descAll content (classify (globFilter files)) ∧
    st.error = errAll content (classify (globFilter files)) ∧
    st.incomplete = incAll (classify (globFilter files)) ∧
    st.courses = crsAll (classify (globFilter files)) ∧
    (∀ f, f ∈ st.input ↔ f ∈ files ∧
      f ∉ movedAll content (classify (globFilter files)) ∧
      f ∈ knownFiles (classify (globFilter files))) ∧
    (∀ f, f ∈ st.unknown ↔ f ∈ files ∧
      f ∉ movedAll content (classify (globFilter files)) ∧
      f ∉ knownFiles (classify (globFilter files))) := by
  obtain ⟨st1, hp, hsw⟩ := run_ok_elim h
  obtain ⟨d1, e1, i1, c1, u1, n1⟩ := processAll_ok_spec hp
  subst hsw
  refine ⟨?_, ?_, ?_, ?_, ?_, ?_⟩
  · rw [(sweep_fields _ _).1, d1]
    rfl
  · rw [(sweep_fields _ _).2.1, e1]
    rfl
  · rw [(sweep_fields _ _).2.2.1, i1]
    rfl
  · rw [(sweep_fields _ _).2.2.2, c1]
    rfl
  · intro f
    rw [mem_sweep_input, n1]
    simp only [initFS, mem_removeAll]
    tauto
  · intro f
    rw [mem_sweep_unknown, u1, n1]
    simp only [initFS, mem_removeAll, List.not_mem_nil, false_or]
    tauto

/-! ### Positive membership in the accumulated lists -/

theorem errAll_of_mem {content : ContentDb} {docs : Documents} {id : String}
    {b : Bucket} {f : String} (hb : (id, b) ∈ docs) (hf : f ∈ degreeErr content b) :
    f ∈ errAll content docs := by
  induction docs with
  | nil => cases hb
  | cons p rest ih =>
      obtain ⟨j, b'⟩ := p
      rcases List.mem_cons.mp hb with h | h
      · have h2 : b = b' := congrArg Prod.snd h
        subst h2
        show f ∈ degreeErr content b ++ errAll content rest
        exact List.mem_append.mpr (Or.inl hf)
      · show f ∈ degreeErr content b' ++ errAll content rest
        exact List.mem_append.mpr (Or.inr (ih h))

theorem incAll_of_mem {docs : Documents} {id : String} {b : Bucket} {f : String}
    (hb : (id, b) ∈ docs) (hf : f ∈ degreeInc b) : f ∈ incAll docs := by
  induction docs with
  | nil => cases hb
  | cons p rest ih =>
      obtain ⟨j, b'⟩ := p
      rcases List.mem_cons.mp hb with h | h
      · have h2 : b = b' := congrArg Prod.snd h
        subst h2
        show f ∈ degreeInc b ++ incAll rest
        exact List.mem_append.mpr (Or.inl hf)
      · show f ∈ degreeInc b' ++ incAll rest
        exact List.mem_append.mpr (Or.inr (ih h))

theorem crsAll_of_mem {docs : Documents} {id : String} {b : Bucket} {f : String}
    (hb : (id, b) ∈ docs) (hf : f ∈ degreeCrs b) : f ∈ crsAll docs := by
  induction docs with
  | nil => cases hb
  | cons p rest ih =>
      obtain ⟨j, b'⟩ := p
      rcases List.mem_cons.mp hb with h | h
      · have h2 : b = b' := congrArg Prod.snd h
        subst h2
        show f ∈ degreeCrs b ++ crsAll rest
        exact List.mem_append.mpr (Or.inl hf)
      · show f ∈ degreeCrs b' ++ crsAll rest
        exact List.mem_append.mpr (Or.inr (ih h))

/-! ### The accumulated move lists are contained in the moved set -/

theorem errAll_sub_moved {content : ContentDb} {docs : Documents} {f : String}
    (h : f ∈ errAll content docs) : f ∈ movedAll content docs := by
  obtain ⟨id, b, hb, hf⟩ := mem_errAll h
  refine ?_
  have : f ∈ degreeMoved content b :=
    List.mem_append.mpr (Or.inl (List.mem_append.mpr (Or.inr hf)))
  clear h
  induction docs with
  | nil => cases hb
  | cons p rest ih =>
      obtain ⟨j, b'⟩ := p
      rcases List.mem_cons.mp hb with h' | h'
      · have h2 : b = b' := congrArg Prod.snd h'
        subst h2
        show f ∈ degreeMoved content b ++ movedAll content rest
        exact List.mem_append.mpr (Or.inl this)
      · show f ∈ degreeMoved content b' ++ movedAll content rest
        exact List.mem_append.mpr (Or.inr (ih h'))

theorem incAll_sub_moved {content : ContentDb} {docs : Documents} {f : String}
    (h : f ∈ incAll docs) : f ∈ movedAll content docs := by
  obtain ⟨id, b, hb, hf⟩ := mem_incAll h
  have hmv : f ∈ degreeMoved content b := List.mem_append.mpr (Or.inr hf)
  clear h
  induction docs with
  | nil => cases hb
  | cons p rest ih =>
      obtain ⟨j, b'⟩ := p
      rcases List.mem_cons.mp hb with h' | h'
      · have h2 : b = b' := congrArg Prod.snd h'
        subst h2
        show f ∈ degreeMoved content b ++ movedAll content rest
        exact List.mem_append.mpr (Or.inl hmv)
      · show f ∈ degreeMoved content b' ++ movedAll content rest
        exact List.mem_append.mpr (Or.inr (ih h'))

theorem crsAll_sub_moved {content : ContentDb} {docs : Documents} {f : String}
    (h : f ∈ crsAll docs) : f ∈ movedAll content docs := by
  obtain ⟨id, b, hb, hf⟩ := mem_crsAll h
  have hmv : f ∈ degreeMoved content b :=
    List.mem_append.mpr (Or.inl (List.mem_append.mpr (Or.inl hf)))
  clear h
  induction docs with
  | nil => cases hb
  | cons p rest ih =>
      obtain ⟨j, b'⟩ := p
      rcases List.mem_cons.mp hb with h' | h'
      · have h2 : b = b' := congrArg Prod.snd h'
        subst h2
        show f ∈ degreeMoved content b ++ movedAll content rest
        exact List.mem_append.mpr (Or.inl hmv)
      · show f ∈ degreeMoved content b' ++ movedAll content rest
        exact List.mem_append.mpr (Or.inr (ih h'))

theorem movedAll_of_mem {content : ContentDb} {docs : Documents} {id : String}
    {b : Bucket} {f : String} (hb : (id, b) ∈ docs)
    (hf : f ∈ degreeMoved content b) : f ∈ movedAll content docs := by
  induction docs with
  | nil => cases hb
  | cons p rest ih =>
      obtain ⟨j, b'⟩ := p
      rcases List.mem_cons.mp hb with h' | h'
      · have h2 : b = b' := congrArg Prod.snd h'
        subst h2
        show f ∈ degreeMoved content b ++ movedAll content rest
        exact List.mem_append.mpr (Or.inl hf)
      · show f ∈ degreeMoved content b' ++ movedAll content rest
        exact List.mem_append.mpr (Or.inr (ih h'))

/-- A slot value its own degree does not move is not moved by any degree,
is known, and sits in the original listing. -/
theorem slot_value_clean {files : List String} {content : ContentDb}
    {degree cat v : String} {b : Bucket}
    (hb : (degree, b) ∈ classify (globFilter files))
    (hv : lookupCat b cat = some v)
    (hnotown : v ∉ degreeMoved content b) :
    v ∉ movedAll content (classify (globFilter files)) ∧
    v ∈ knownFiles (classify (globFilter files)) ∧ v ∈ files := by
  refine ⟨?_, slot_value_mem_known hb hv, ?_⟩
  · intro hmv
    obtain ⟨id', b', hb', hf'⟩ := mem_movedAll hmv
    obtain ⟨cat', hv'⟩ := degreeMoved_slot hf'
    have h1 := (slot_value_search hb hv).1
    have h2 := (slot_value_search hb' hv').1
    rw [h1] at h2
    have hpair := Option.some_inj.mp h2
    have hid : degree = id' := congrArg Prod.fst hpair
    subst hid
    have hbb : b = b' := bucket_unique hb hb'
    subst hbb
    exact hnotown hf'
  · have hmem := (slot_value_search hb hv).2
    exact (List.mem_filter.mp hmem).1

/-! ### The claims -/

/-- C8: for every filename of the valid form `{3-digit-id}-{category}.docx`
with the category one of skills/mission/courses in any letter case,
classification extracts exactly that three-digit id and exactly that
category lowercased, and records the file under that (id, category) slot of
the degree bucket, overwriting any prior entry. -/
theorem C8_valid_name_extraction {name id tok w : String} {d1 d2 d3 : Char}
    (hname : name = id ++ "-" ++ tok ++ ".docx")
    (hid : id.data = [d1, d2, d3])
    (hd1 : d1.isDigit = true) (hd2 : d2.isDigit = true) (hd3 : d3.isDigit = true)
    (hw : w = "skills" ∨ w = "courses" ∨ w = "mission")
    (htok : tok.data.map Char.toLower = w.data) :
    searchPattern name = some (id, w) ∧
    ∀ docs : Documents, lookup2 (classifyStep docs name) id w = some name := by
  have hdata : name.data = d1 :: d2 :: d3 :: '-' :: (tok.data ++ ".docx".data) := by
    rw [hname, string_data_append, string_data_append, string_data_append, hid]
    rfl
  have h1 : searchPattern name = some (id, w) := by
    rw [searchPattern, hdata]
    rw [searchFrom_head_some (matchHere_valid hd1 hd2 hd3 hw htok), ← hid, mk_data]
  refine ⟨h1, fun docs => ?_⟩
  rw [classifyStep, h1, lookup2_addDoc]
  simp

/-- Witness for C8 at the filename `042-SkIlLs.docx`. -/
theorem C8_valid_name_extraction_witness :
    searchPattern "042-SkIlLs.docx" = some ("042", "skills") ∧
    ∀ docs : Documents,
      lookup2 (classifyStep docs "042-SkIlLs.docx") "042" "skills" =
        some "042-SkIlLs.docx" :=
  @C8_valid_name_extraction "042-SkIlLs.docx" "042" "SkIlLs" "skills" '0' '4' '2'
    rfl rfl rfl rfl rfl (Or.inl rfl) (by decide)

/-- C9: when two or more input files classify to the same (id, category)
pair, the classifier records only the file matched last, overwriting any
prior entry for that pair. -/
theorem C9_last_match_wins {l l1 l2 : List String} {f f0 id cat : String}
    (hsplit : l = l1 ++ f :: l2)
    (hf0 : f0 ∈ l1) (hf0m : searchPattern f0 = some (id, cat))
    (hf : searchPattern f = some (id, cat))
    (hlast : ∀ g ∈ l2, searchPattern g ≠ some (id, cat)) :
    lookup2 (classify l) id cat = some f := by
  have h3 : l2.filter (fun g => decide (searchPattern g = some (id, cat))) = [] := by
    rw [List.filter_eq_nil_iff]
    intro g hg
    simpa using hlast g hg
  rw [hsplit, classify_lookup2, List.filter_append, List.filter_cons]
  simp only [hf, decide_True, if_true, h3]
  rw [lastOr_append]
  rfl

/-- Witness for C9: two files both classify to slot (007, skills); the
later one wins. -/
theorem C9_last_match_wins_witness :
    lookup2 (classify ["007-skills.docx", "x007-skills.docx"]) "007" "skills" =
      some "x007-skills.docx" :=
  @C9_last_match_wins ["007-skills.docx", "x007-skills.docx"] ["007-skills.docx"]
    [] "x007-skills.docx" "007-skills.docx" "007" "skills" rfl
    (List.mem_singleton.mpr rfl) rfl rfl (by simp)

/-- C7: a degree's courses document is always moved to the courses output
directory, whatever mission/skills documents exist for that degree and
whatever happens to them. -/
theorem C7_courses_always_archived {files : List String} {content : ContentDb}
    {st : FS} {id c : String} {b : Bucket}
    (hb : (id, b) ∈ classify (globFilter files))
    (hc : lookupCat b "courses" = some c)
    (hrun : run files content = Except.ok st) :
    c ∈ st.courses ∧ c ∉ st.input ∧ c ∉ st.unknown := by
  obtain ⟨hd, he, hi, hcrs, hin, hun⟩ := run_ok_spec hrun
  have hcl : c ∈ degreeCrs b := by
    unfold degreeCrs
    rw [hc]
    exact List.mem_singleton.mpr rfl
  have hmv : c ∈ movedAll content (classify (globFilter files)) :=
    movedAll_of_mem hb (List.mem_append.mpr (Or.inl (List.mem_append.mpr (Or.inl hcl))))
  refine ⟨?_, ?_, ?_⟩
  · rw [hcrs]
    exact crsAll_of_mem hb hcl
  · intro hmem
    exact ((hin c).mp hmem).2.1 hmv
  · intro hmem
    exact ((hun c).mp hmem).2.1 hmv

/-- Witness for C7: a lone courses file is archived. -/
theorem C7_courses_always_archived_witness :
    "004-courses.docx" ∈ (FS.mk [] [] [] ["004-courses.docx"] [] []).courses ∧
    "004-courses.docx" ∉ (FS.mk [] [] [] ["004-courses.docx"] [] []).input ∧
    "004-courses.docx" ∉ (FS.mk [] [] [] ["004-courses.docx"] [] []).unknown :=
  @C7_courses_always_archived ["004-courses.docx"] []
    (FS.mk [] [] [] ["004-courses.docx"] [] []) "004" "004-courses.docx"
    [("courses", "004-courses.docx")]
    (by
      rw [show classify (globFilter ["004-courses.docx"]) =
        [("004", [("courses", "004-courses.docx")])] from rfl]
      exact List.mem_singleton.mpr rfl)
    rfl rfl

/-- C6: a degree whose bucket has exactly one of mission/skills gets that
lone file moved to incomplete, and no description document is produced for
that degree. -/
theorem C6_lone_file_incomplete {files : List String} {content : ContentDb}
    {st : FS} {id f : String} {b : Bucket}
    (hb : (id, b) ∈ classify (globFilter files))
    (hone : (lookupCat b "mission" = some f ∧ lookupCat b "skills" = none) ∨
            (lookupCat b "mission" = none ∧ lookupCat b "skills" = some f))
    (hrun : run files content = Except.ok st) :
    f ∈ st.incomplete ∧ ∀ e ∈ st.descriptions, e.1 ≠ id ++ "-description.docx" := by
  obtain ⟨hd, he, hi, hcrs, hin, hun⟩ := run_ok_spec hrun
  have hinc : f ∈ degreeInc b := by
    unfold degreeInc
    rcases hone with ⟨hm, hs⟩ | ⟨hm, hs⟩ <;> rw [hm, hs] <;>
      exact List.mem_singleton.mpr rfl
  have hdesc : degreeDesc content id b = [] := by
    unfold degreeDesc
    rcases hone with ⟨hm, hs⟩ | ⟨hm, hs⟩ <;> rw [hm, hs]
  refine ⟨?_, ?_⟩
  · rw [hi]
    exact incAll_of_mem hb hinc
  · intro e hmem heq
    have hfil := @descAll_filter_eq content (classify (globFilter files)) id b
      (classify_keys_nodup (globFilter files)) hb
    rw [hdesc] at hfil
    have hmem2 : e ∈ (descAll content (classify (globFilter files))).filter
        (fun e => decide (e.1 = id ++ "-description.docx")) := by
      rw [List.mem_filter]
      refine ⟨by rw [← hd]; exact hmem, by simp [heq]⟩
    rw [hfil] at hmem2
    cases hmem2

/-- Witness for C6: a lone mission file goes to incomplete. -/
theorem C6_lone_file_incomplete_witness :
    "003-mission.docx" ∈ (FS.mk [] [] ["003-mission.docx"] [] [] []).incomplete ∧
    ∀ e ∈ (FS.mk [] [] ["003-mission.docx"] [] [] []).descriptions,
      e.1 ≠ "003" ++ "-description.docx" :=
  @C6_lone_file_incomplete ["003-mission.docx"] []
    (FS.mk [] [] ["003-mission.docx"] [] [] []) "003" "003-mission.docx"
    [("mission", "003-mission.docx")]
    (by
      rw [show classify (globFilter ["003-mission.docx"]) =
        [("003", [("mission", "003-mission.docx")])] from rfl]
      exact List.mem_singleton.mpr rfl)
    (Or.inl ⟨rfl, rfl⟩) rfl

/-- C2 (evaluation of the code at the claim's input): both sources are
non-empty, the merged description is produced, yet the two source files are
still present in the input directory after the full run — the sweeper skips
them because they are known bucket values. -/
theorem C2_merged_sources_remain :
    run ["001-mission.docx", "001-skills.docx"]
      [("001-mission.docx", ["m"]), ("001-skills.docx", ["s"])] =
    Except.ok (FS.mk ["001-mission.docx", "001-skills.docx"]
      [("001-description.docx", ["m", "s"])] [] [] [] []) := rfl

/-- C3 (counterexample): with degree 005's mission document unreadable, the
whole run aborts with an error — degree 006 is never processed, the sweeper
never runs, and the unmatched file junk.txt is not routed anywhere. -/
theorem C3_counterexample :
    run ["005-mission.docx", "005-skills.docx", "006-mission.docx",
        "006-skills.docx", "junk.txt"]
      [("006-mission.docx", ["a"]), ("006-skills.docx", ["b"])] =
    Except.error "005-mission.docx" := rfl

/-- C3 (amended): a document-read failure for one degree is not isolated —
whenever some degree's bucket has both mission and skills and one of them is
unreadable, the whole run aborts with an error, so no final state exists:
the remaining degrees are not processed and the sweeper does not run. -/
theorem C3_read_error_aborts_run {files : List String} {content : ContentDb}
    {id m s : String} {b : Bucket}
    (hb : (id, b) ∈ classify (globFilter files))
    (hm : lookupCat b "mission" = some m) (hs : lookupCat b "skills" = some s)
    (hr : readDoc content m = none ∨ readDoc content s = none) :
    ∃ e, run files content = Except.error e := by
  rcases hp : processAll content (initFS files) (classify (globFilter files)) with e | st1
  · refine ⟨e, ?_⟩
    unfold run
    rw [hp]
  · exfalso
    obtain ⟨s1, s2, hdeg⟩ := processAll_ok_mem hp (id, b) hb
    exact processDegree_read_fail hm hs hr s1 s2 hdeg

/-- Witness for the amended C3: an unreadable mission document of a complete
pair aborts the run. -/
theorem C3_read_error_aborts_run_witness :
    ∃ e, run ["005-mission.docx", "005-skills.docx"] [] = Except.error e :=
  @C3_read_error_aborts_run ["005-mission.docx", "005-skills.docx"] [] "005"
    "005-mission.docx" "005-skills.docx"
    [("mission", "005-mission.docx"), ("skills", "005-skills.docx")]
    (by
      rw [show classify (globFilter ["005-mission.docx", "005-skills.docx"]) =
        [("005", [("mission", "005-mission.docx"), ("skills", "005-skills.docx")])]
        from rfl]
      exact List.mem_singleton.mpr rfl)
    rfl rfl (Or.inl rfl)

/-- Modelled from the spec (claim C4's wording of the filename contract):
one category word case-insensitively, followed by exactly the extension
`.docx` and nothing else. -/
def wordThenExt (w : String) (rest : List Char) : Bool :=
  match stripCI w.data rest with
  | some r => decide (r = ".docx".data)
  | none => false

/-- Modelled from the spec: the filename pattern as claim C4 words it — the
whole name is exactly three digits, a hyphen, one of the three category
words (case-insensitive), then the document extension.  The code instead
applies the regex unanchored (`re.search`) and with an unescaped dot. -/
def claimPatternMatch (name : String) : Bool :=
  match name.data with
  | d1 :: d2 :: d3 :: '-' :: rest =>
    d1.isDigit && d2.isDigit && d3.isDigit &&
      (wordThenExt "skills" rest || wordThenExt "courses" rest ||
        wordThenExt "mission" rest)
  | _ => false

/-- C4 (counterexample): `x001-mission.docx` does not match the pattern as
the claim states it (exactly three digits, a hyphen, a category word, the
extension), yet the run classifies it — `re.search` finds the match inside
the name — and moves it to incomplete; the unknown directory stays empty. -/
theorem C4_counterexample :
    claimPatternMatch "x001-mission.docx" = false ∧
    run ["x001-mission.docx"] [] =
      Except.ok (FS.mk [] [] ["x001-mission.docx"] [] [] []) :=
  ⟨rfl, rfl⟩

/-- C4 (amended): a file in whose name the unanchored search finds no match
is left unclassified, ends in the unknown directory after a full run, leaves
the input directory, and is never moved to the error, incomplete, or courses
directory (the descriptions directory receives only newly synthesized
documents, never input files). -/
theorem C4_unmatched_to_unknown {files : List String} {content : ContentDb}
    {st : FS} {f : String} (hf : f ∈ files) (hnm : searchPattern f = none)
    (hrun : run files content = Except.ok st) :
    f ∈ st.unknown ∧ f ∉ st.input ∧ f ∉ st.error ∧ f ∉ st.incomplete ∧
      f ∉ st.courses := by
  obtain ⟨hd, he, hi, hcrs, hin, hun⟩ := run_ok_spec hrun
  have hnk : f ∉ knownFiles (classify (globFilter files)) := by
    intro hk
    exact (mem_knownFiles_classify hk).2 hnm
  have hnmv : f ∉ movedAll content (classify (globFilter files)) := by
    intro hmv
    obtain ⟨id', b', hb', hf'⟩ := mem_movedAll hmv
    obtain ⟨cat', hv'⟩ := degreeMoved_slot hf'
    have hsearch := (slot_value_search hb' hv').1
    rw [hnm] at hsearch
    cases hsearch
  refine ⟨(hun f).mpr ⟨hf, hnmv, hnk⟩, ?_, ?_, ?_, ?_⟩
  · intro hmem
    exact hnk ((hin f).mp hmem).2.2
  · intro hmem
    rw [he] at hmem
    exact hnmv (errAll_sub_moved hmem)
  · intro hmem
    rw [hi] at hmem
    exact hnmv (incAll_sub_moved hmem)
  · intro hmem
    rw [hcrs] at hmem
    exact hnmv (crsAll_sub_moved hmem)

/-- Witness for the amended C4 at the unmatched file notes.txt. -/
theorem C4_unmatched_to_unknown_witness :
    "notes.txt" ∈ (FS.mk [] [] [] [] [] ["notes.txt"]).unknown ∧
    "notes.txt" ∉ (FS.mk [] [] [] [] [] ["notes.txt"]).input ∧
    "notes.txt" ∉ (FS.mk [] [] [] [] [] ["notes.txt"]).error ∧
    "notes.txt" ∉ (FS.mk [] [] [] [] [] ["notes.txt"]).incomplete ∧
    "notes.txt" ∉ (FS.mk [] [] [] [] [] ["notes.txt"]).courses :=
  @C4_unmatched_to_unknown ["notes.txt"] [] (FS.mk [] [] [] [] [] ["notes.txt"])
    "notes.txt" (List.mem_singleton.mpr rfl) rfl rfl

/-- A mission or skills slot value is never its own degree's courses move. -/
theorem slot_not_own_crs {l : List String} {degree cat v : String} {b : Bucket}
    (hb : (degree, b) ∈ classify l) (hv : lookupCat b cat = some v)
    (hne : cat ≠ "courses") : v ∉ degreeCrs b := by
  intro h
  have hcm := degreeCrs_slot h
  have h1 := (slot_value_search hb hv).1
  have h2 := (slot_value_search hb hcm).1
  rw [h1] at h2
  exact hne (congrArg Prod.snd (Option.some_inj.mp h2))

/-- C1: a degree whose bucket holds both a mission and a skills document,
with both extracted texts non-empty, yields exactly one description document
named {id}-description.docx holding the mission text then the skills text,
and neither source file is moved to the error or incomplete directory. -/
theorem C1_merged_pair {files : List String} {content : ContentDb} {st : FS}
    {degree m s : String} {b : Bucket} {mp sp : List String}
    (hb : (degree, b) ∈ classify (globFilter files))
    (hm : lookupCat b "mission" = some m) (hs : lookupCat b "skills" = some s)
    (hmp : readDoc content m = some mp) (hsp : readDoc content s = some sp)
    (hmt : joinParas mp ≠ "") (hst : joinParas sp ≠ "")
    (hrun : run files content = Except.ok st) :
    st.descriptions.filter (fun e => decide (e.1 = degree ++ "-description.docx")) =
      [(degree ++ "-description.docx", [joinParas mp, joinParas sp])] ∧
    m ∉ st.error ∧ m ∉ st.incomplete ∧ s ∉ st.error ∧ s ∉ st.incomplete := by
  obtain ⟨hd, he, hi, hcrs, hin, hun⟩ := run_ok_spec hrun
  have hdesc : degreeDesc content degree b =
      [(degree ++ "-description.docx", [joinParas mp, joinParas sp])] := by
    simp only [degreeDesc, hm, hs, hmp, hsp]
    rw [if_pos ⟨hmt, hst⟩]
  have herr : degreeErr content b = [] := by
    simp only [degreeErr, hm, hs, hmp, hsp]
    rw [if_pos ⟨hmt, hst⟩]
  have hincb : degreeInc b = [] := by
    simp only [degreeInc, hm, hs]
  have hmnotown : m ∉ degreeMoved content b := by
    intro hmv
    rcases List.mem_append.mp hmv with h' | h'
    · rcases List.mem_append.mp h' with h'' | h''
      · exact slot_not_own_crs hb hm (by decide) h''
      · rw [herr] at h''
        cases h''
    · rw [hincb] at h'
      cases h'
  have hsnotown : s ∉ degreeMoved content b := by
    intro hmv
    rcases List.mem_append.mp hmv with h' | h'
    · rcases List.mem_append.mp h' with h'' | h''
      · exact slot_not_own_crs hb hs (by decide) h''
      · rw [herr] at h''
        cases h''
    · rw [hincb] at h'
      cases h'
  obtain ⟨hmmv, hmkn, hmfl⟩ := slot_value_clean hb hm hmnotown
  obtain ⟨hsmv, hskn, hsfl⟩ := slot_value_clean hb hs hsnotown
  have hfil := @descAll_filter_eq content (classify (globFilter files)) degree b
    (classify_keys_nodup (globFilter files)) hb
  rw [hdesc] at hfil
  refine ⟨?_, ?_, ?_, ?_, ?_⟩
  · rw [hd]
    exact hfil
  · intro hmem
    exact hmmv (errAll_sub_moved (he ▸ hmem))
  · intro hmem
    exact hmmv (incAll_sub_moved (hi ▸ hmem))
  · intro hmem
    exact hsmv (errAll_sub_moved (he ▸ hmem))
  · intro hmem
    exact hsmv (incAll_sub_moved (hi ▸ hmem))

/-- Witness for C1: a complete non-empty pair for degree 001. -/
theorem C1_merged_pair_witness :
    (FS.mk ["001-mission.docx", "001-skills.docx"]
        [("001-description.docx", ["m", "s"])] [] [] [] []).descriptions.filter
      (fun e => decide (e.1 = "001" ++ "-description.docx")) =
      [("001" ++ "-description.docx", ["m", "s"])] ∧
    "001-mission.docx" ∉ (FS.mk ["001-mission.docx", "001-skills.docx"]
        [("001-description.docx", ["m", "s"])] [] [] [] []).error ∧
    "001-mission.docx" ∉ (FS.mk ["001-mission.docx", "001-skills.docx"]
        [("001-description.docx", ["m", "s"])] [] [] [] []).incomplete ∧
    "001-skills.docx" ∉ (FS.mk ["001-mission.docx", "001-skills.docx"]
        [("001-description.docx", ["m", "s"])] [] [] [] []).error ∧
    "001-skills.docx" ∉ (FS.mk ["001-mission.docx", "001-skills.docx"]
        [("001-description.docx", ["m", "s"])] [] [] [] []).incomplete :=
  @C1_merged_pair ["001-mission.docx", "001-skills.docx"]
    [("001-mission.docx", ["m"]), ("001-skills.docx", ["s"])]
    (FS.mk ["001-mission.docx", "001-skills.docx"]
      [("001-description.docx", ["m", "s"])] [] [] [] [])
    "001" "001-mission.docx" "001-skills.docx"
    [("mission", "001-mission.docx"), ("skills", "001-skills.docx")] ["m"] ["s"]
    (by
      rw [show classify (globFilter ["001-mission.docx", "001-skills.docx"]) =
        [("001", [("mission", "001-mission.docx"), ("skills", "001-skills.docx")])]
        from rfl]
      exact List.mem_singleton.mpr rfl)
    rfl rfl rfl rfl (by decide) (by decide) rfl

/-- C5: a degree whose bucket holds both mission and skills but at least one
extracted text is empty produces no description for that degree; each
empty-text member is moved to error, and a non-empty counterpart is not
moved anywhere — it remains in the input directory. -/
theorem C5_empty_text_error {files : List String} {content : ContentDb} {st : FS}
    {degree m s : String} {b : Bucket} {mp sp : List String}
    (hb : (degree, b) ∈ classify (globFilter files))
    (hm : lookupCat b "mission" = some m) (hs : lookupCat b "skills" = some s)
    (hmp : readDoc content m = some mp) (hsp : readDoc content s = some sp)
    (hempty : joinParas mp = "" ∨ joinParas sp = "")
    (hrun : run files content = Except.ok st) :
    (∀ e ∈ st.descriptions, e.1 ≠ degree ++ "-description.docx") ∧
    (joinParas mp = "" → m ∈ st.error) ∧
    (joinParas sp = "" → s ∈ st.error) ∧
    (joinParas mp ≠ "" → m ∈ st.input ∧ m ∉ st.error ∧ m ∉ st.incomplete ∧
      m ∉ st.courses ∧ m ∉ st.unknown) ∧
    (joinParas sp ≠ "" → s ∈ st.input ∧ s ∉ st.error ∧ s ∉ st.incomplete ∧
      s ∉ st.courses ∧ s ∉ st.unknown) := by
  obtain ⟨hd, he, hi, hcrs, hin, hun⟩ := run_ok_spec hrun
  have hcond : ¬(joinParas mp ≠ "" ∧ joinParas sp ≠ "") := by
    rcases hempty with h | h
    · exact fun hx => hx.1 h
    · exact fun hx => hx.2 h
  have hdesc : degreeDesc content degree b = [] := by
    simp only [degreeDesc, hm, hs, hmp, hsp]
    rw [if_neg hcond]
  have herr : degreeErr content b =
      (if joinParas mp = "" then [m] else []) ++
        (if joinParas sp = "" then [s] else []) := by
    simp only [degreeErr, hm, hs, hmp, hsp]
    rw [if_neg hcond]
  have hincb : degreeInc b = [] := by
    simp only [degreeInc, hm, hs]
  have hne_ms : m ≠ s := by
    refine slot_values_distinct hb hm hb hs ?_
    intro hx
    have hss : ("mission" : String) = "skills" := congrArg Prod.snd hx
    exact absurd hss (by decide)
  refine ⟨?_, ?_, ?_, ?_, ?_⟩
  · intro e hmem heq
    have hfil := @descAll_filter_eq content (classify (globFilter files)) degree b
      (classify_keys_nodup (globFilter files)) hb
    rw [hdesc] at hfil
    have hmem2 : e ∈ (descAll content (classify (globFilter files))).filter
        (fun e => decide (e.1 = degree ++ "-description.docx")) := by
      rw [List.mem_filter]
      refine ⟨by rw [← hd]; exact hmem, by simp [heq]⟩
    rw [hfil] at hmem2
    cases hmem2
  · intro hm0
    rw [he]
    refine errAll_of_mem hb ?_
    rw [herr, if_pos hm0]
    exact List.mem_append.mpr (Or.inl (List.mem_singleton.mpr rfl))
  · intro hs0
    rw [he]
    refine errAll_of_mem hb ?_
    rw [herr, if_pos hs0]
    exact List.mem_append.mpr (Or.inr (List.mem_singleton.mpr rfl))
  · intro hm0
    have hmnotown : m ∉ degreeMoved content b := by
      intro hmv
      rcases List.mem_append.mp hmv with h' | h'
      · rcases List.mem_append.mp h' with h'' | h''
        · exact slot_not_own_crs hb hm (by decide) h''
        · rw [herr, if_neg hm0] at h''
          rcases List.mem_append.mp h'' with h3 | h3
          · cases h3
          · by_cases hs0 : joinParas sp = ""
            · rw [if_pos hs0] at h3
              exact hne_ms (List.mem_singleton.mp h3)
            · rw [if_neg hs0] at h3
              cases h3
      · rw [hincb] at h'
        cases h'
    obtain ⟨hmmv, hmkn, hmfl⟩ := slot_value_clean hb hm hmnotown
    refine ⟨(hin m).mpr ⟨hmfl, hmmv, hmkn⟩, ?_, ?_, ?_, ?_⟩
    · intro hmem
      exact hmmv (errAll_sub_moved (he ▸ hmem))
    · intro hmem
      exact hmmv (incAll_sub_moved (hi ▸ hmem))
    · intro hmem
      exact hmmv (crsAll_sub_moved (hcrs ▸ hmem))
    · intro hmem
      exact ((hun m).mp hmem).2.2 hmkn
  · intro hs0
    have hsnotown : s ∉ degreeMoved content b := by
      intro hmv
      rcases List.mem_append.mp hmv with h' | h'
      · rcases List.mem_append.mp h' with h'' | h''
        · exact slot_not_own_crs hb hs (by decide) h''
        · rw [herr, if_neg hs0] at h''
          rcases List.mem_append.mp h'' with h3 | h3
          · by_cases hm0 : joinParas mp = ""
            · rw [if_pos hm0] at h3
              exact hne_ms (List.mem_singleton.mp h3).symm
            · rw [if_neg hm0] at h3
              cases h3
          · cases h3
      · rw [hincb] at h'
        cases h'
    obtain ⟨hsmv, hskn, hsfl⟩ := slot_value_clean hb hs hsnotown
    refine ⟨(hin s).mpr ⟨hsfl, hsmv, hskn⟩, ?_, ?_, ?_, ?_⟩
    · intro hmem
      exact hsmv (errAll_sub_moved (he ▸ hmem))
    · intro hmem
      exact hsmv (incAll_sub_moved (hi ▸ hmem))
    · intro hmem
      exact hsmv (crsAll_sub_moved (hcrs ▸ hmem))
    · intro hmem
      exact ((hun s).mp hmem).2.2 hskn

/-- Witness for C5: degree 002 has an empty mission text and a non-empty
skills text; the mission file is moved to error, the skills file stays in
the input directory. -/
theorem C5_empty_text_error_witness :
    (∀ e ∈ (FS.mk ["002-skills.docx"] [] [] [] ["002-mission.docx"] []).descriptions,
      e.1 ≠ "002" ++ "-description.docx") ∧
    (joinParas [] = "" → "002-mission.docx" ∈
      (FS.mk ["002-skills.docx"] [] [] [] ["002-mission.docx"] []).error) ∧
    (joinParas ["s"] = "" → "002-skills.docx" ∈
      (FS.mk ["002-skills.docx"] [] [] [] ["002-mission.docx"] []).error) ∧
    (joinParas [] ≠ "" → "002-mission.docx" ∈
        (FS.mk ["002-skills.docx"] [] [] [] ["002-mission.docx"] []).input ∧
      "002-mission.docx" ∉
        (FS.mk ["002-skills.docx"] [] [] [] ["002-mission.docx"] []).error ∧
      "002-mission.docx" ∉
        (FS.mk ["002-skills.docx"] [] [] [] ["002-mission.docx"] []).incomplete ∧
      "002-mission.docx" ∉
        (FS.mk ["002-skills.docx"] [] [] [] ["002-mission.docx"] []).courses ∧
      "002-mission.docx" ∉
        (FS.mk ["002-skills.docx"] [] [] [] ["002-mission.docx"] []).unknown) ∧
    (joinParas ["s"] ≠ "" → "002-skills.docx" ∈
        (FS.mk ["002-skills.docx"] [] [] [] ["002-mission.docx"] []).input ∧
      "002-skills.docx" ∉
        (FS.mk ["002-skills.docx"] [] [] [] ["002-mission.docx"] []).error ∧
      "002-skills.docx" ∉
        (FS.mk ["002-skills.docx"] [] [] [] ["002-mission.docx"] []).incomplete ∧
      "002-skills.docx" ∉
        (FS.mk ["002-skills.docx"] [] [] [] ["002-mission.docx"] []).courses ∧
      "002-skills.docx" ∉
        (FS.mk ["002-skills.docx"] [] [] [] ["002-mission.docx"] []).unknown) :=
  @C5_empty_text_error ["002-mission.docx", "002-skills.docx"]
    [("002-mission.docx", []), ("002-skills.docx", ["s"])]
    (FS.mk ["002-skills.docx"] [] [] [] ["002-mission.docx"] [])
    "002" "002-mission.docx" "002-skills.docx"
    [("mission", "002-mission.docx"), ("skills", "002-skills.docx")] [] ["s"]
    (by
      rw [show classify (globFilter ["002-mission.docx", "002-skills.docx"]) =
        [("002", [("mission", "002-mission.docx"), ("skills", "002-skills.docx")])]
        from rfl]
      exact List.mem_singleton.mpr rfl)
    rfl rfl rfl rfl (Or.inl rfl) rfl

/-- C10: no claimed file is moved to unknown by the sweeper, even when it is
still in the input directory at sweep time; in particular the mission and
skills sources of a successfully merged pair remain in the input directory
after the run. -/
theorem C10_claimed_never_unknown {files : List String} {content : ContentDb}
    {st : FS} (hrun : run files content = Except.ok st) :
    (∀ f ∈ knownFiles (classify (globFilter files)), f ∉ st.unknown) ∧
    (∀ degree b m s mp sp, (degree, b) ∈ classify (globFilter files) →
      lookupCat b "mission" = some m → lookupCat b "skills" = some s →
      readDoc content m = some mp → readDoc content s = some sp →
      joinParas mp ≠ "" → joinParas sp ≠ "" →
      m ∈ st.input ∧ s ∈ st.input) := by
  obtain ⟨hd, he, hi, hcrs, hin, hun⟩ := run_ok_spec hrun
  refine ⟨?_, ?_⟩
  · intro f hf hmem
    exact ((hun f).mp hmem).2.2 hf
  · intro degree b m s mp sp hb hm hs hmp hsp hmt hst
    have herr : degreeErr content b = [] := by
      simp only [degreeErr, hm, hs, hmp, hsp]
      rw [if_pos ⟨hmt, hst⟩]
    have hincb : degreeInc b = [] := by
      simp only [degreeInc, hm, hs]
    have hmnotown : m ∉ degreeMoved content b := by
      intro hmv
      rcases List.mem_append.mp hmv with h' | h'
      · rcases List.mem_append.mp h' with h'' | h''
        · exact slot_not_own_crs hb hm (by decide) h''
        · rw [herr] at h''
          cases h''
      · rw [hincb] at h'
        cases h'
    have hsnotown : s ∉ degreeMoved content b := by
      intro hmv
      rcases List.mem_append.mp hmv with h' | h'
      · rcases List.mem_append.mp h' with h'' | h''
        · exact slot_not_own_crs hb hs (by decide) h''
        · rw [herr] at h''
          cases h''
      · rw [hincb] at h'
        cases h'
    obtain ⟨hmmv, hmkn, hmfl⟩ := slot_value_clean hb hm hmnotown
    obtain ⟨hsmv, hskn, hsfl⟩ := slot_value_clean hb hs hsnotown
    exact ⟨(hin m).mpr ⟨hmfl, hmmv, hmkn⟩, (hin s).mpr ⟨hsfl, hsmv, hskn⟩⟩

/-- Witness for C10: merged pair 001's sources stay in input and nothing
lands in unknown. -/
theorem C10_claimed_never_unknown_witness :
    (∀ f ∈ knownFiles (classify (globFilter ["001-mission.docx", "001-skills.docx"])),
      f ∉ (FS.mk ["001-mission.docx", "001-skills.docx"]
        [("001-description.docx", ["m", "s"])] [] [] [] []).unknown) ∧
    (∀ degree b m s mp sp,
      (degree, b) ∈ classify (globFilter ["001-mission.docx", "001-skills.docx"]) →
      lookupCat b "mission" = some m → lookupCat b "skills" = some s →
      readDoc [("001-mission.docx", ["m"]), ("001-skills.docx", ["s"])] m = some mp →
      readDoc [("001-mission.docx", ["m"]), ("001-skills.docx", ["s"])] s = some sp →
      joinParas mp ≠ "" → joinParas sp ≠ "" →
      m ∈ (FS.mk ["001-mission.docx", "001-skills.docx"]
          [("001-description.docx", ["m", "s"])] [] [] [] []).input ∧
      s ∈ (FS.mk ["001-mission.docx", "001-skills.docx"]
          [("001-description.docx", ["m", "s"])] [] [] [] []).input) :=
  @C10_claimed_never_unknown ["001-mission.docx", "001-skills.docx"]
    [("001-mission.docx", ["m"]), ("001-skills.docx", ["s"])]
    (FS.mk ["001-mission.docx", "001-skills.docx"]
      [("001-description.docx", ["m", "s"])] [] [] [] []) rfl

end MergeDocs
